import Mathlib

/-!
Verification of the bootstrap mediation core of `04_bootstrap_mediation.py`
(repository `pforr-learning-architecture`).

The script's bootstrap loop, its numpy-`lstsq` mediation estimator, the Sobel
test, and the percentile confidence intervals are shallowly embedded here.
Machine floats are embedded as exact rationals; the only place where IEEE
special values matter (division by a zero total effect in the percent-mediated
statistic) is modelled by the dedicated type `FVal` below.  External library
routines (numpy's least-squares solver, numpy's random generator, scipy's
normal CDF) are modelled as explicit parameters or, where their contract
matters, by hypotheses stating that contract.
-/

/-! ### Untyped (list-level) data, mirroring numpy arrays

`Vec` embeds a 1-D float array, `Mat` a 2-D float array as its list of rows. -/

abbrev Vec := List ℚ

abbrev Mat := List Vec

/-- Fancy indexing `l[idx]` of a numpy array by an integer index array:
out-of-range entries raise `IndexError`, embedded as `none`. -/
def gather {α : Type} (l : List α) : List ℕ → Option (List α)
  | [] => some []
  | i :: is =>
    match l.get? i, gather l is with
    | some x, some xs => some (x :: xs)
    | _, _ => none

/-- Number of columns of a row-list matrix (numpy `X.shape[1]`). -/
def width (X : Mat) : ℕ := (X.headD []).length

/-- All rows have the same length (a well-formed 2-D numpy array). -/
def sameWidth (X : Mat) : Prop := ∀ r ∈ X, r.length = width X

instance : DecidablePred sameWidth := fun X => by
  unfold sameWidth; exact List.decidableBAll _ X

/-- `PFORR_COL = 1` — the treatment column index (source line 92). -/
def PFORR_COL : ℕ := 1

/-- The estimator `mediation_fast` of source lines 94–98, over row-lists.
`solve` embeds `np.linalg.lstsq` (an external total routine: numpy returns the
minimum-norm least-squares solution even on rank-deficient input and raises
only on malformed shapes, which the guard reflects): fits `Yme` on `X`
(`coef_me`), appends `Yme` as the last column (`np.column_stack`), fits `Yout`
on the extended matrix (`coef_out`), and returns
`(coef_me[PFORR_COL], coef_out[-1], coef_out[PFORR_COL])`. -/
def mediationFastL (solve : Mat → Vec → Vec) (X : Mat) (Yme Yout : Vec) :
    Option (ℚ × ℚ × ℚ) :=
  if 2 ≤ width X ∧ sameWidth X ∧ Yme.length = X.length ∧ Yout.length = X.length then
    let coef_me := solve X Yme
    let Xout := List.zipWith (fun r v => r ++ [v]) X Yme
    let coef_out := solve Xout Yout
    some (coef_me.getD PFORR_COL 0, coef_out.getD (coef_out.length - 1) 0,
      coef_out.getD PFORR_COL 0)
  else none

/-! ### The bootstrap loop (source lines 100–119)

Each iteration gathers a resample by an index draw, runs the estimator inside
`try:`, and records `(a*b, d)`; any exception leaves the iteration's slots as
NaN (`none` here), and the loop continues (`except Exception: pass`). -/

/-- The body of one bootstrap iteration (lines 107–113): gather the resample
`X[idx]`, `Y_me[idx]`, `Y_out[idx]`, run the estimator, and record
`(a*b, d)`; any failure (out-of-range gather or estimator error) yields the
invalid marker `none` — the `except Exception: pass` of the source. -/
def iterRecord (est : Mat → Vec → Vec → Option (ℚ × ℚ × ℚ))
    (X : Mat) (Yme Yout : Vec) (idx : List ℕ) : Option (ℚ × ℚ) :=
  match gather X idx, gather Yme idx, gather Yout idx with
  | some Xs, some ys, some zs =>
    match est Xs ys zs with
    | some (a, b, d) => some (a * b, d)
    | none => none
  | _, _, _ => none

/-- One record per iteration: `some (indirect, direct)` for a successful draw,
`none` for an iteration whose slots stay NaN. -/
def bootstrapLoop (est : Mat → Vec → Vec → Option (ℚ × ℚ × ℚ))
    (draws : List (List ℕ)) (X : Mat) (Yme Yout : Vec) : List (Option (ℚ × ℚ)) :=
  draws.map (iterRecord est X Yme Yout)

/-- `valid = ~np.isnan(boot_ind)` (line 115): the successful iterations,
in order. -/
def validRecs (recs : List (Option (ℚ × ℚ))) : List (ℚ × ℚ) :=
  recs.filterMap id

/-- `valid.sum()` (line 116), the diagnostic count of valid iterations. -/
def validCount (recs : List (Option (ℚ × ℚ))) : ℕ := (validRecs recs).length

/-- `boot_ind[valid]` — indirect effects of the valid iterations. -/
def bootInd (recs : List (Option (ℚ × ℚ))) : List ℚ :=
  (validRecs recs).map Prod.fst

/-- `boot_dir[valid]` — direct effects of the valid iterations. -/
def bootDir (recs : List (Option (ℚ × ℚ))) : List ℚ :=
  (validRecs recs).map Prod.snd

/-- `boot_tot = boot_ind[valid] + boot_dir[valid]` (line 118), elementwise. -/
def bootTot (recs : List (Option (ℚ × ℚ))) : List ℚ :=
  List.zipWith (· + ·) (bootInd recs) (bootDir recs)

/-! ### The point-estimate derived quantities (source lines 60–62) -/

/-- `ind_pt = a_pt * b_pt` (line 60). -/
def ind_pt (a b : ℚ) : ℚ := a * b

/-- `tot_pt = ind_pt + d_pt` (line 61). -/
def tot_pt (a b d : ℚ) : ℚ := ind_pt a b + d

/-! ### IEEE special values for the percent-mediated statistic

`boot_pct = boot_ind[valid] / boot_tot * 100` (line 119) divides finite floats
where the denominator can be exactly zero; IEEE 754 then yields `±inf` (or
`nan` for `0/0`), and these values flow on into `np.percentile`.  `FVal` is
the image of a finite-float computation extended with those special values. -/

inductive FVal where
  | fin : ℚ → FVal
  | inf : FVal
  | neginf : FVal
  | nan : FVal
deriving DecidableEq

/-- IEEE 754 division of two finite doubles, exact on the rationals the
pipeline produces: a zero denominator yields `±inf` by the sign of the
numerator, and `nan` for `0/0`. -/
def fDivQ (a b : ℚ) : FVal :=
  if b ≠ 0 then .fin (a / b)
  else if 0 < a then .inf
  else if a < 0 then .neginf
  else .nan

/-- IEEE 754 multiplication by the positive finite constant `100`. -/
def fMul100 : FVal → FVal
  | .fin q => .fin (q * 100)
  | .inf => .inf
  | .neginf => .neginf
  | .nan => .nan

/-- `boot_pct = boot_ind[valid] / boot_tot * 100` (line 119), elementwise,
with IEEE semantics at zero totals. -/
def bootPct (recs : List (Option (ℚ × ℚ))) : List FVal :=
  List.zipWith (fun i t => fMul100 (fDivQ i t)) (bootInd recs) (bootTot recs)

/-- `pct_pt = ind_pt / tot_pt * 100` (line 62), with IEEE semantics. -/
def pct_pt (a b d : ℚ) : FVal := fMul100 (fDivQ (ind_pt a b) (tot_pt a b d))

/-! ### The numpy global random generator (source lines 100–107)

`np.random.seed(42)` reseeds the single process-wide generator and
`np.random.randint(0, n, n)` draws `n` integers in `[0, n)` from it.  The
generator is embedded as explicit state: `stream` is the (external) generator
algorithm — `stream seed t` is the `t`-th raw draw after seeding with `seed` —
and `seed`/`pos` are the mutable process-wide state the library keeps.  Two
`NpRng` values with the same `stream` are the same process-wide library in two
different states. -/

structure NpRng where
  stream : ℕ → ℕ → ℕ
  seed : ℕ
  pos : ℕ

/-- `np.random.seed s`: reset the process-wide state. -/
def npSeed (g : NpRng) (s : ℕ) : NpRng := ⟨g.stream, s, 0⟩

/-- One draw of `np.random.randint(0, n)`: a value in `[0, n)` and the
advanced generator state. -/
def npRandint (g : NpRng) (n : ℕ) : ℕ × NpRng :=
  (g.stream g.seed g.pos % n, ⟨g.stream, g.seed, g.pos + 1⟩)

/-- `np.random.randint(0, n, count)`: `count` successive draws. -/
def npRandintVec (g : NpRng) (n : ℕ) : ℕ → List ℕ × NpRng
  | 0 => ([], g)
  | c + 1 =>
    let p := npRandint g n
    let rest := npRandintVec p.2 n c
    (p.1 :: rest.1, rest.2)

/-- The `n_iter` index arrays `idx = np.random.randint(0, n, n)` drawn by the
loop of lines 106–107, in iteration order. -/
def drawAll (g : NpRng) (n : ℕ) : ℕ → List (List ℕ) × NpRng
  | 0 => ([], g)
  | c + 1 =>
    let p := npRandintVec g n n
    let rest := drawAll p.2 n c
    (p.1 :: rest.1, rest.2)

/-- `N_BOOT = 2000` (source line 101). -/
def N_BOOT : ℕ := 2000

/-- The script's bootstrap as it stands in the source: seed the process-wide
generator with the hard-coded constant `42` (line 100), draw all `N_BOOT`
index arrays for `n = len(df2)` rows, and run the loop.  The generator state
`g` is the ambient process-wide generator at the moment the script reaches
line 100; nothing about the random source is supplied by a caller. -/
def scriptBoot (g : NpRng) (est : Mat → Vec → Vec → Option (ℚ × ℚ × ℚ))
    (X : Mat) (Yme Yout : Vec) : List (Option (ℚ × ℚ)) :=
  bootstrapLoop est (drawAll (npSeed g 42) X.length N_BOOT).1 X Yme Yout

/-- Any two executions whose process holds the same generator algorithm give
identical results, whatever caller-visible generator state (`seed`, `pos`)
they start from: the hard-coded `np.random.seed(42)` erases that state. -/
def reseededRunsAgree : Prop :=
  ∀ (g₁ g₂ : NpRng) est X Yme Yout, g₁.stream = g₂.stream →
    scriptBoot g₁ est X Yme Yout = scriptBoot g₂ est X Yme Yout

/-- The claim that the random source is explicitly seedable and passed in by
the caller: then the caller-visible state of the source it hands over (its
seed/position) could influence the run, i.e. two states of the same generator
algorithm could yield different results. -/
def callerSourceSensitive : Prop :=
  ∃ (g₁ g₂ : NpRng) (est : Mat → Vec → Vec → Option (ℚ × ℚ × ℚ))
    (X : Mat) (Yme Yout : Vec), g₁.stream = g₂.stream ∧
    scriptBoot g₁ est X Yme Yout ≠ scriptBoot g₂ est X Yme Yout

/-! ### Dimension-mismatch behaviour (claim C8) -/

/-- Row counts of `X`, `Y_me`, `Y_out` disagree. -/
def dimsMismatch (X : Mat) (Yme Yout : Vec) : Prop :=
  ¬(Yme.length = X.length ∧ Yout.length = X.length)

/-- The claim that a row-count mismatch is a fatal precondition violation
detected before any resampling: the loop then produces no iteration records
at all (it aborts before the first draw is consumed). -/
def failsBeforeResampling : Prop :=
  ∀ est draws X Yme Yout, dimsMismatch X Yme Yout →
    bootstrapLoop est draws X Yme Yout = []

/-! ### Zero-total-effect behaviour (claim C5) -/

/-- The claim that a zero total effect is flagged as the NaN sentinel and that
the percentile computation excludes exactly the zero-total entries (so that
their excluded number is reportable). -/
def pctNaNFlaggedAndExcluded : Prop :=
  ∀ recs : List (Option (ℚ × ℚ)),
    (∀ p ∈ validRecs recs, p.1 + p.2 = 0 →
        fMul100 (fDivQ p.1 (p.1 + p.2)) = FVal.nan) ∧
    (bootPct recs).length =
      ((validRecs recs).filter (fun p => p.1 + p.2 != 0)).length

/-! ### `np.percentile` with the linear-interpolation method and `ci`
(source lines 121–127) -/

/-- The interpolation rank `q/100 * (m-1)` used by `np.percentile` for an
`m`-element array. -/
def rankOf (m : ℕ) (q : ℚ) : ℚ := q * ((m : ℚ) - 1) / 100

/-- The lower bracketing index `⌊rank⌋`. -/
def idxOf (m : ℕ) (q : ℚ) : ℕ := (⌊rankOf m q⌋).toNat

/-- Linear interpolation between the bracketing order statistics of the
sorted array `s` (numpy's default `interpolation='linear'`):
`s[i] + frac * (s[min(i+1, m-1)] - s[i])` with `i = ⌊rank⌋`,
`frac = rank - i`. -/
def percLin (s : List ℚ) (q : ℚ) : ℚ :=
  s.getD (idxOf s.length q) 0 +
    (rankOf s.length q - (idxOf s.length q : ℚ)) *
      (s.getD (min (idxOf s.length q + 1) (s.length - 1)) 0 -
        s.getD (idxOf s.length q) 0)

/-- `np.percentile` sorts its input first. -/
def sortedOf (l : List ℚ) : List ℚ := List.insertionSort (· ≤ ·) l

/-- `np.percentile(arr, q)` with the default linear-interpolation method. -/
def npPercentile (l : List ℚ) (q : ℚ) : ℚ := percLin (sortedOf l) q

/-- `ci(arr) = (np.percentile(arr, 2.5), np.percentile(arr, 97.5))`
(source lines 121–122). -/
def ci (l : List ℚ) : ℚ × ℚ := (npPercentile l 2.5, npPercentile l 97.5)

/-- `ci_ind = ci(boot_ind[valid])` (line 124). -/
def ciInd (recs : List (Option (ℚ × ℚ))) : ℚ × ℚ := ci (bootInd recs)

/-- `ci_dir = ci(boot_dir[valid])` (line 125). -/
def ciDir (recs : List (Option (ℚ × ℚ))) : ℚ × ℚ := ci (bootDir recs)

/-- `ci_tot = ci(boot_tot)` (line 126). -/
def ciTot (recs : List (Option (ℚ × ℚ))) : ℚ × ℚ := ci (bootTot recs)

/-- The percent-mediated bootstrap distribution as plain rationals; it agrees
with `bootPct` whenever no valid draw has a zero total. -/
def bootPctQ (recs : List (Option (ℚ × ℚ))) : List ℚ :=
  List.zipWith (fun i t => i / t * 100) (bootInd recs) (bootTot recs)

/-- Smallest element of a nonempty list, as the head of its sorted copy. -/
def listMin (l : List ℚ) : ℚ := (sortedOf l).getD 0 0

/-- Largest element of a nonempty list, as the last of its sorted copy. -/
def listMax (l : List ℚ) : ℚ := (sortedOf l).getD (l.length - 1) 0

/-- The interval shape required of every reported 95% interval: `low ≤ high`
and both bounds inside the min/max range of the underlying distribution. -/
def intervalOK (l : List ℚ) : Prop :=
  listMin l ∈ l ∧ (∀ x ∈ l, listMin l ≤ x) ∧
  listMax l ∈ l ∧ (∀ x ∈ l, x ≤ listMax l) ∧
  listMin l ≤ (ci l).1 ∧ (ci l).1 ≤ (ci l).2 ∧ (ci l).2 ≤ listMax l

/-! ### The Sobel test (source lines 73–78)

`np.sqrt` and `scipy.stats.norm.cdf` are external scalar routines, passed in
as the functions `sqrt` and `Φ`. -/

/-- `sobel_se = np.sqrt(b**2 * se_a**2 + a**2 * se_b**2)` (line 75). -/
def sobel_se (sqrt : ℚ → ℚ) (a se_a b se_b : ℚ) : ℚ :=
  sqrt (b ^ 2 * se_a ^ 2 + a ^ 2 * se_b ^ 2)

/-- `sobel_z = ind_pt / sobel_se` with `ind_pt = a_pt * b_pt` (line 76). -/
def sobel_z (sqrt : ℚ → ℚ) (a se_a b se_b : ℚ) : ℚ :=
  ind_pt a b / sobel_se sqrt a se_a b se_b

/-- `sobel_p = 2 * (1 - Φ(abs(sobel_z)))` (line 77). -/
def sobel_p (sqrt Φ : ℚ → ℚ) (a se_a b se_b : ℚ) : ℚ :=
  2 * (1 - Φ |sobel_z sqrt a se_a b se_b|)

/-! ### Ordinary least squares over exact rationals (claims C1 and C10)

The mediation estimator is a pair of `np.linalg.lstsq` calls.  The solver is
external, so it enters as a parameter; its contract — a least-squares
solution always satisfies the normal equations — enters as a hypothesis where
a claim needs it.  `sqNorm`, `isLS` and `normalEq` give the mathematical
characterisation the claims speak about. -/

open Matrix

/-- Squared Euclidean norm `‖v‖²`. -/
def sqNorm {n : ℕ} (v : Fin n → ℚ) : ℚ := v ⬝ᵥ v

/-- `β` is an ordinary-least-squares solution: it minimises `‖y − Xβ'‖²`. -/
def isLS {n k : ℕ} (X : Matrix (Fin n) (Fin k) ℚ) (y : Fin n → ℚ)
    (β : Fin k → ℚ) : Prop :=
  ∀ γ : Fin k → ℚ, sqNorm (y - X.mulVec β) ≤ sqNorm (y - X.mulVec γ)

/-- The normal equations `XᵀX β = Xᵀ y`. -/
def normalEq {n k : ℕ} (X : Matrix (Fin n) (Fin k) ℚ) (y : Fin n → ℚ)
    (β : Fin k → ℚ) : Prop :=
  (Xᵀ * X).mulVec β = Xᵀ.mulVec y

/-- `X_ext = np.column_stack([X, Y_me])` (source line 96): the design matrix
with the mediator appended as the last column. -/
def extendX {n k : ℕ} (X : Matrix (Fin n) (Fin k) ℚ) (yme : Fin n → ℚ) :
    Matrix (Fin n) (Fin (k + 1)) ℚ :=
  Matrix.of fun i => Fin.snoc (X i) (yme i)

/-- The treatment column as an index into the `k+2` columns of the design
matrix (intercept, treatment, `k` further columns). -/
def pforrIdx (k : ℕ) : Fin (k + 2) := ⟨PFORR_COL, by unfold PFORR_COL; omega⟩

/-- The treatment column as an index into the extended matrix's `k+3`
columns. -/
def pforrIdxE (k : ℕ) : Fin (k + 3) := ⟨PFORR_COL, by unfold PFORR_COL; omega⟩

/-- `mediation_fast` (source lines 94–98) over typed matrices:
`coef_me = lstsq(X, Yme)`, `coef_out = lstsq(column_stack([X, Yme]), Yout)`,
returning `(coef_me[PFORR_COL], coef_out[-1], coef_out[PFORR_COL])`.
`solve` embeds `np.linalg.lstsq`, shape-indexed because the two calls are on
matrices of different widths. -/
def mediation_fast {n k : ℕ}
    (solve : (m : ℕ) → Matrix (Fin n) (Fin m) ℚ → (Fin n → ℚ) → (Fin m → ℚ))
    (X : Matrix (Fin n) (Fin (k + 2)) ℚ) (yme yout : Fin n → ℚ) : ℚ × ℚ × ℚ :=
  let coef_me := solve (k + 2) X yme
  let coef_out := solve (k + 3) (extendX X yme) yout
  (coef_me (pforrIdx k), coef_out (Fin.last (k + 2)), coef_out (pforrIdxE k))

/-- Modelled from the spec: the statsmodels formula-based point estimates of
source lines 54–59 (`smf.ols(...).fit(cov_type="HC3")`, whose `params` are
the OLS coefficients of the patsy-built design matrix — the HC3 covariance
choice affects only standard errors).  The two design matrices `Xme`, `Xout`
are taken as given, together with the indices of the `pforr` and `me_num`
coefficients in each; the triple is `(a, b, direct) =
(params_me[pforr], params_out[me_num], params_out[pforr])`. -/
def smf_triple {n k : ℕ}
    (solve₂ : (m : ℕ) → Matrix (Fin n) (Fin m) ℚ → (Fin n → ℚ) → (Fin m → ℚ))
    (Xme : Matrix (Fin n) (Fin (k + 2)) ℚ) (Xout : Matrix (Fin n) (Fin (k + 3)) ℚ)
    (pforrMe : Fin (k + 2)) (meOut pforrOut : Fin (k + 3))
    (yme yout : Fin n → ℚ) : ℚ × ℚ × ℚ :=
  (solve₂ (k + 2) Xme yme pforrMe, solve₂ (k + 3) Xout yout meOut,
    solve₂ (k + 3) Xout yout pforrOut)

/-! ### Concrete instances used by the witnesses -/

/-- A 3×2 full-column-rank design: intercept and treatment columns. -/
def Xw : Matrix (Fin 3) (Fin 2) ℚ := !![1, 0; 1, 1; 1, 0]

def ymew : Fin 3 → ℚ := ![0, 1, 2]

def youtw : Fin 3 → ℚ := ![0, 2, 4]

/-- A concrete solver for the witness: returns the (unique) least-squares
solutions of the two systems arising from `Xw`, `ymew`, `youtw`. -/
def wSolve : (m : ℕ) → Matrix (Fin 3) (Fin m) ℚ → (Fin 3 → ℚ) → (Fin m → ℚ)
  | 2, _, _ => ![1, 0]
  | 3, _, _ => ![0, 0, 2]
  | _, _, _ => fun _ => 0

/-- Column permutation relating the witness's formula-style mediator design
(`[pforr, 1]`) to the fast design (`[1, pforr]`). -/
def σw : Fin 2 ≃ Fin 2 := Equiv.swap 0 1

/-- Column permutation relating the witness's formula-style outcome design to
the fast extended design: `τw 0 = 1` (pforr), `τw 1 = 2` (me_num last),
`τw 2 = 0` (intercept). -/
def τw : Fin 3 ≃ Fin 3 :=
  ⟨![1, 2, 0], ![2, 0, 1], fun x => by fin_cases x <;> rfl,
    fun x => by fin_cases x <;> rfl⟩

/-- The witness's formula-path solver: the same least-squares solutions as
`wSolve`, in the permuted column order. -/
def wSolve2 : (m : ℕ) → Matrix (Fin 3) (Fin m) ℚ → (Fin 3 → ℚ) → (Fin m → ℚ)
  | 2, _, _ => ![0, 1]
  | 3, _, _ => ![0, 2, 0]
  | _, _, _ => fun _ => 0

/-- A trivial estimator used by witnesses that quantify over the estimator. -/
def estW : Mat → Vec → Vec → Option (ℚ × ℚ × ℚ) := fun _ _ _ => none

/-- A process-wide generator state used by witnesses. -/
def gW : NpRng := ⟨fun _ _ => 0, 0, 0⟩

/-- The same generator algorithm as `gW` in a different caller-visible state
(different current seed and position). -/
def gW2 : NpRng := ⟨fun _ _ => 0, 7, 99⟩

/-! ## Supporting lemmas -/

theorem gather_eq_some {α : Type} (l : List α) (d : α) (idx : List ℕ)
    (h : ∀ i ∈ idx, i < l.length) :
    gather l idx = some (idx.map fun i => l.getD i d) := by
  induction idx with
  | nil => rfl
  | cons i is ih =>
    have hi : i < l.length := h i (by simp)
    have hrec := ih fun j hj => h j (by simp [hj])
    unfold gather
    rw [hrec, List.get?_eq_get hi, List.map_cons, List.getD_eq_get l d hi]

theorem gather_eq_none {α : Type} (l : List α) (idx : List ℕ)
    (h : ∃ i ∈ idx, l.length ≤ i) :
    gather l idx = none := by
  induction idx with
  | nil => simp at h
  | cons i is ih =>
    rcases h with ⟨j, hj, hlen⟩
    rcases List.mem_cons.mp hj with rfl | hjs
    · have hnone : l.get? j = none := List.get?_eq_none.mpr hlen
      unfold gather
      rw [hnone]
    · have hnone : gather l is = none := ih ⟨j, hjs, hlen⟩
      cases hget : l.get? i
      · unfold gather; rw [hget]
      · unfold gather; rw [hget, hnone]

theorem getD_mem {α : Type} (l : List α) (d : α) (i : ℕ) (h : i < l.length) :
    l.getD i d ∈ l := by
  rw [List.getD_eq_get l d h]
  exact List.get_mem l i h

theorem getD_map_of_lt {α β : Type} (f : α → β) (l : List α) (j : ℕ)
    (h : j < l.length) (d : α) (d' : β) :
    (l.map f).getD j d' = f (l.getD j d) := by
  rw [List.getD_eq_get _ d' (by simpa using h), List.getD_eq_get l d h]
  simp

theorem matchTriple_eq_map (o : Option (ℚ × ℚ × ℚ)) :
    (match o with
      | some (a, b, d) => some (a * b, d)
      | none => none) =
      Option.map (fun t : ℚ × ℚ × ℚ => (t.1 * t.2.1, t.2.2)) o := by
  rcases o with - | ⟨a, b, d⟩ <;> rfl

theorem iterRecord_eq_of_inbounds (est : Mat → Vec → Vec → Option (ℚ × ℚ × ℚ))
    (X : Mat) (Yme Yout : Vec) (idx : List ℕ)
    (h1 : ∀ i ∈ idx, i < X.length) (h2 : ∀ i ∈ idx, i < Yme.length)
    (h3 : ∀ i ∈ idx, i < Yout.length) :
    iterRecord est X Yme Yout idx =
      Option.map (fun t : ℚ × ℚ × ℚ => (t.1 * t.2.1, t.2.2))
        (est (idx.map fun i => X.getD i []) (idx.map fun i => Yme.getD i 0)
          (idx.map fun i => Yout.getD i 0)) := by
  unfold iterRecord
  rw [gather_eq_some X [] idx h1, gather_eq_some Yme 0 idx h2,
    gather_eq_some Yout 0 idx h3]
  exact matchTriple_eq_map _

theorem zipWith_map_same {α β γ δ : Type} (f : β → γ → δ) (g : α → β) (h : α → γ)
    (l : List α) :
    List.zipWith f (l.map g) (l.map h) = l.map fun x => f (g x) (h x) := by
  rw [List.zipWith_map, List.zipWith_same]

theorem validCount_add_invalid (recs : List (Option (ℚ × ℚ))) :
    validCount recs + (recs.filter Option.isNone).length = recs.length := by
  induction recs with
  | nil => rfl
  | cons r rs ih =>
    cases r <;> simp [validCount, validRecs, List.filter_cons] at ih ⊢ <;> omega

theorem npRandintVec_length (g : NpRng) (n c : ℕ) :
    (npRandintVec g n c).1.length = c := by
  induction c generalizing g with
  | zero => rfl
  | succ c ih => simp [npRandintVec, ih]

theorem npRandintVec_lt (g : NpRng) (n c : ℕ) (hn : 0 < n) :
    ∀ v ∈ (npRandintVec g n c).1, v < n := by
  induction c generalizing g with
  | zero => simp [npRandintVec]
  | succ c ih =>
    intro v hv
    rcases List.mem_cons.mp hv with rfl | hrest
    · exact Nat.mod_lt _ hn
    · exact ih _ v hrest

theorem drawAll_length (g : NpRng) (n c : ℕ) :
    (drawAll g n c).1.length = c := by
  induction c generalizing g with
  | zero => rfl
  | succ c ih => simp [drawAll, ih]

theorem drawAll_shape (g : NpRng) (n c : ℕ) (hn : 0 < n) :
    ∀ idx ∈ (drawAll g n c).1, idx.length = n ∧ ∀ i ∈ idx, i < n := by
  induction c generalizing g with
  | zero => simp [drawAll]
  | succ c ih =>
    intro idx hidx
    rcases List.mem_cons.mp hidx with rfl | hrest
    · exact ⟨npRandintVec_length g n n, npRandintVec_lt g n n hn⟩
    · exact ih _ idx hrest

/-! ## Claim theorems -/

/-- C3: for the point estimate and for every valid bootstrap iteration, the
reported total effect is exactly the sum of the indirect and direct effects:
`tot_pt = ind_pt + d_pt` and `boot_tot[i] = boot_ind[i] + boot_dir[i]` for
each valid iteration (exact over the rationals, hence within any ε in
floating point). -/
theorem total_eq_indirect_plus_direct (a b d : ℚ) (recs : List (Option (ℚ × ℚ))) :
    tot_pt a b d = ind_pt a b + d ∧
    bootTot recs = (validRecs recs).map fun p => p.1 + p.2 := by
  refine ⟨rfl, ?_⟩
  unfold bootTot bootInd bootDir
  exact zipWith_map_same _ _ _ _

/-- C2: a bootstrap run over `n`-row data with `n_iter` iterations draws, per
iteration, `n` indices in `[0, n)` from the random source; produces exactly
one record per iteration (an estimator failure never aborts the run); each
record is the estimator's result on the row-gathered resample, with
`indirect = a*b` and `direct = d` on success and an invalid marker on
failure; invalid iterations are excluded from the aggregate lists (the valid
and invalid counts partition `n_iter`); and the valid count out of `n_iter`
is the surfaced diagnostic. -/
theorem bootstrap_resampler_spec (est : Mat → Vec → Vec → Option (ℚ × ℚ × ℚ))
    (g : NpRng) (n n_iter : ℕ) (X : Mat) (Yme Yout : Vec)
    (hn : 0 < n) (hX : X.length = n) (hme : Yme.length = n) (hout : Yout.length = n) :
    (drawAll (npSeed g 42) n n_iter).1.length = n_iter ∧
    (∀ idx ∈ (drawAll (npSeed g 42) n n_iter).1, idx.length = n ∧ ∀ i ∈ idx, i < n) ∧
    (bootstrapLoop est (drawAll (npSeed g 42) n n_iter).1 X Yme Yout).length = n_iter ∧
    (∀ j, j < n_iter →
      (bootstrapLoop est (drawAll (npSeed g 42) n n_iter).1 X Yme Yout).getD j none =
        Option.map (fun t : ℚ × ℚ × ℚ => (t.1 * t.2.1, t.2.2))
          (est (((drawAll (npSeed g 42) n n_iter).1.getD j []).map fun i => X.getD i [])
            (((drawAll (npSeed g 42) n n_iter).1.getD j []).map fun i => Yme.getD i 0)
            (((drawAll (npSeed g 42) n n_iter).1.getD j []).map fun i => Yout.getD i 0))) ∧
    validCount (bootstrapLoop est (drawAll (npSeed g 42) n n_iter).1 X Yme Yout) +
        ((bootstrapLoop est (drawAll (npSeed g 42) n n_iter).1 X Yme Yout).filter
          Option.isNone).length = n_iter ∧
    bootInd (bootstrapLoop est (drawAll (npSeed g 42) n n_iter).1 X Yme Yout) =
      (validRecs (bootstrapLoop est (drawAll (npSeed g 42) n n_iter).1 X Yme Yout)).map
        Prod.fst := by
  set draws := (drawAll (npSeed g 42) n n_iter).1 with hdraws
  have hlen : draws.length = n_iter := drawAll_length _ _ _
  have hshape := drawAll_shape (npSeed g 42) n n_iter hn
  refine ⟨hlen, hshape, ?_, ?_, ?_, rfl⟩
  · simpa [bootstrapLoop] using hlen
  · intro j hj
    have hjd : j < draws.length := hlen ▸ hj
    have hmem : draws.getD j [] ∈ draws := getD_mem _ _ _ hjd
    obtain ⟨-, hran⟩ := hshape _ hmem
    rw [bootstrapLoop, getD_map_of_lt _ _ j hjd [] none]
    exact iterRecord_eq_of_inbounds est X Yme Yout _
      (fun i hi => hX ▸ hran i hi) (fun i hi => hme ▸ hran i hi)
      (fun i hi => hout ▸ hran i hi)
  · rw [validCount_add_invalid (bootstrapLoop est draws X Yme Yout)]
    simpa [bootstrapLoop] using hlen

/-- Witness for C2 at a concrete instance: one iteration over one-row data
produces exactly one iteration record. -/
theorem bootstrap_resampler_spec_witness :
    (bootstrapLoop estW (drawAll (npSeed gW 42) 1 1).1 [[1]] [2] [3]).length = 1 :=
  (bootstrap_resampler_spec estW gW 1 1 [[1]] [2] [3] (by decide) rfl rfl rfl).2.2.1

/-- C8 counterexample: the loop performs no row-count precondition check.  On
concretely mismatched inputs (X has 2 rows, Y_me has 1 entry) with a draw
hitting the out-of-range row, the run does not fail before resampling: it
produces a full iteration record (`[none]`) — the mismatch is converted into
a discarded iteration, refuting `failsBeforeResampling`. -/
theorem dim_mismatch_claim_counterexample :
    ¬failsBeforeResampling ∧
    bootstrapLoop estW [[1, 1]] [[1, 0], [1, 1]] [1] [1, 2] = [none] ∧
    validCount (bootstrapLoop estW [[1, 1]] [[1, 0], [1, 1]] [1] [1, 2]) = 0 := by
  refine ⟨?_, by decide, by decide⟩
  intro h
  have h2 := h estW [[1, 1]] [[1, 0], [1, 1]] [1] [1, 2]
    (by unfold dimsMismatch; decide)
  exact absurd h2 (by decide)

/-- C8 amended: a row-count mismatch is not detected before resampling; the
loop runs once per draw regardless, and every draw that touches a row index
out of range of any of the three arrays becomes a silently discarded invalid
iteration while the run completes. -/
theorem mismatch_becomes_discarded_iterations
    (est : Mat → Vec → Vec → Option (ℚ × ℚ × ℚ)) (draws : List (List ℕ))
    (X : Mat) (Yme Yout : Vec)
    (h : ∀ idx ∈ draws, ∃ i ∈ idx,
      X.length ≤ i ∨ Yme.length ≤ i ∨ Yout.length ≤ i) :
    (bootstrapLoop est draws X Yme Yout).length = draws.length ∧
    ∀ r ∈ bootstrapLoop est draws X Yme Yout, r = none := by
  constructor
  · simp [bootstrapLoop]
  · intro r hr
    rcases List.mem_map.mp hr with ⟨idx, hidx, hval⟩
    rcases h idx hidx with ⟨i, hi, hcase⟩
    subst hval
    rcases hcase with h1 | h2 | h3
    · unfold iterRecord
      rw [gather_eq_none X idx ⟨i, hi, h1⟩]
    · unfold iterRecord
      rw [gather_eq_none Yme idx ⟨i, hi, h2⟩]
      cases gather X idx <;> rfl
    · unfold iterRecord
      rw [gather_eq_none Yout idx ⟨i, hi, h3⟩]
      cases gather X idx <;> cases gather Yme idx <;> rfl

/-- Witness for the amended C8 at the counterexample's concrete input. -/
theorem mismatch_becomes_discarded_iterations_witness :
    (bootstrapLoop estW [[1, 1]] [[1, 0], [1, 1]] [1] [1, 2]).length = 1 ∧
    ∀ r ∈ bootstrapLoop estW [[1, 1]] [[1, 0], [1, 1]] [1] [1, 2], r = none :=
  mismatch_becomes_discarded_iterations estW [[1, 1]] [[1, 0], [1, 1]] [1] [1, 2]
    (by decide)

/-- C9: with the estimator built on the (total) numpy least-squares solver,
any well-shaped resample — including a rank-deficient one such as a single
row duplicated `n` times — yields a successful iteration record: the solver
returns a solution rather than crashing, and the run continues, producing a
record for every draw. -/
theorem rank_deficient_no_crash (solve : Mat → Vec → Vec) (draws : List (List ℕ))
    (X : Mat) (Yme Yout : Vec)
    (hw : 2 ≤ width X) (hsw : sameWidth X)
    (hme : Yme.length = X.length) (hout : Yout.length = X.length)
    (hdr : ∀ idx ∈ draws, idx ≠ [] ∧ ∀ i ∈ idx, i < X.length) :
    (bootstrapLoop (mediationFastL solve) draws X Yme Yout).length = draws.length ∧
    ∀ r ∈ bootstrapLoop (mediationFastL solve) draws X Yme Yout,
      r.isSome = true := by
  constructor
  · simp [bootstrapLoop]
  · intro r hr
    rcases List.mem_map.mp hr with ⟨idx, hidx, hval⟩
    obtain ⟨hne, hran⟩ := hdr idx hidx
    subst hval
    rw [iterRecord_eq_of_inbounds (mediationFastL solve) X Yme Yout idx hran
      (fun i hi => hme ▸ hran i hi) (fun i hi => hout ▸ hran i hi)]
    rcases idx with - | ⟨i₀, is⟩
    · exact absurd rfl hne
    have hw0 : width (List.map (fun i => X.getD i []) (i₀ :: is)) = width X := by
      simp only [List.map_cons, width, List.headD_cons]
      exact hsw _ (getD_mem X [] i₀ (hran i₀ (by simp)))
    have hguard : 2 ≤ width (List.map (fun i => X.getD i []) (i₀ :: is)) ∧
        sameWidth (List.map (fun i => X.getD i []) (i₀ :: is)) ∧
        (List.map (fun i => Yme.getD i 0) (i₀ :: is)).length =
          (List.map (fun i => X.getD i []) (i₀ :: is)).length ∧
        (List.map (fun i => Yout.getD i 0) (i₀ :: is)).length =
          (List.map (fun i => X.getD i []) (i₀ :: is)).length := by
      refine ⟨hw0 ▸ hw, ?_, by simp, by simp⟩
      intro row hrow
      rcases List.mem_map.mp hrow with ⟨i, hiidx, hrowval⟩
      rw [← hrowval, hw0]
      exact hsw _ (getD_mem X [] i (hran i hiidx))
    rw [mediationFastL, if_pos hguard]
    rfl

/-- Witness for C9: a draw `[0, 0]` duplicates row 0 of a 2×2 design — a
rank-deficient resample — and the iteration still succeeds. -/
theorem rank_deficient_no_crash_witness :
    (bootstrapLoop (mediationFastL fun _ _ => [0, 0]) [[0, 0]]
      [[1, 0], [1, 1]] [1, 2] [3, 4]).length = 1 ∧
    ∀ r ∈ bootstrapLoop (mediationFastL fun _ _ => [0, 0]) [[0, 0]]
      [[1, 0], [1, 1]] [1, 2] [3, 4], r.isSome = true :=
  rank_deficient_no_crash (fun _ _ => [0, 0]) [[0, 0]] [[1, 0], [1, 1]]
    [1, 2] [3, 4] (by decide) (by decide) rfl rfl (by decide)

/-- C6 counterexample: the claim's two halves cannot both hold of this
script.  The random source is the implicit process-wide generator reseeded
with the hard-coded constant `42` inside the script, so the run is completely
insensitive to the caller-visible state of any random source — there is no
caller-passed source through which a seed could be supplied.  Formally,
`reseededRunsAgree` (insensitivity) holds, so `callerSourceSensitive` (what
being caller-passed and seedable would make possible) is false, refuting the
conjunction. -/
theorem rng_caller_passed_claim_counterexample :
    ¬(reseededRunsAgree ∧ callerSourceSensitive) := by
  rintro ⟨hdet, g₁, g₂, est, X, Yme, Yout, hs, hne⟩
  exact hne (hdet g₁ g₂ est X Yme Yout hs)

/-- C6 amended: two runs given the same underlying generator algorithm are
bit-for-bit identical — but not because a seeded source is passed in by the
caller; the script hard-codes `np.random.seed(42)` on the implicit
process-wide generator (its state is overwritten to `(42, 0)` whatever it
was), so no caller-supplied seed or source can influence the run. -/
theorem script_rng_deterministic_and_global :
    reseededRunsAgree ∧ ∀ g : NpRng, npSeed g 42 = ⟨g.stream, 42, 0⟩ := by
  constructor
  · intro g₁ g₂ est X Yme Yout hs
    unfold scriptBoot npSeed
    rw [hs]
  · intro g
    rfl

/-- Witness for the amended C6: two generator states that differ in seed and
position but share the algorithm produce the same run. -/
theorem script_rng_deterministic_and_global_witness :
    scriptBoot gW estW [[1]] [2] [3] = scriptBoot gW2 estW [[1]] [2] [3] :=
  script_rng_deterministic_and_global.1 gW gW2 estW [[1]] [2] [3] rfl

/-- C5 counterexample: on the single valid draw `(indirect, direct) = (1, -1)`
the total is exactly `0`, and the percent-mediated value the code computes is
`+inf`, not the NaN sentinel; moreover the entry is not excluded from the
array handed to the percentile computation (`boot_pct` keeps length 1 while
the zero-total-filtered length is 0, and no exclusion count exists),
refuting `pctNaNFlaggedAndExcluded`. -/
theorem pct_nan_claim_counterexample :
    ¬pctNaNFlaggedAndExcluded ∧
    bootPct [some (1, -1)] = [FVal.inf] ∧
    ((validRecs [some (1, -1)]).filter (fun p => p.1 + p.2 != 0)).length = 0 := by
  have hpct : bootPct [some (1, -1)] = [FVal.inf] := by
    norm_num [bootPct, bootInd, bootDir, bootTot, validRecs,
      List.filterMap_cons, fDivQ, fMul100]
  have hfilter :
      ((validRecs [some (1, -1)]).filter (fun p => p.1 + p.2 != 0)).length = 0 := by
    norm_num [validRecs, List.filter]
  refine ⟨?_, hpct, hfilter⟩
  intro h
  have h1 := (h [some (1, -1)]).1 (1, -1) (by simp [validRecs]) (by norm_num)
  rw [show (1 : ℚ) + -1 = 0 by norm_num] at h1
  rw [show fDivQ 1 0 = FVal.inf by norm_num [fDivQ]] at h1
  exact absurd h1 (by simp [fMul100])

/-- C5 amended: when the total effect is exactly `0`, the percent-mediated
value is `+inf` for a positive indirect effect, `-inf` for a negative one,
and NaN only for `0/0`; and such entries are propagated into the percentile
input unexcluded — `boot_pct` always has exactly one entry per valid
iteration, with no exclusion count.  The same holds for the point estimate
`pct_pt` at a zero `tot_pt`. -/
theorem pct_zero_total_propagates (ind dir : ℚ) (h : ind + dir = 0) :
    fMul100 (fDivQ ind (ind + dir)) =
      (if 0 < ind then FVal.inf else if ind < 0 then FVal.neginf else FVal.nan) ∧
    (∀ recs, (bootPct recs).length = validCount recs) ∧
    (∀ a b d : ℚ, tot_pt a b d = 0 →
      pct_pt a b d = (if 0 < ind_pt a b then FVal.inf
        else if ind_pt a b < 0 then FVal.neginf else FVal.nan)) := by
  refine ⟨?_, ?_, ?_⟩
  · rw [h]
    unfold fDivQ
    rw [if_neg fun hne => hne rfl]
    split_ifs <;> rfl
  · intro recs
    simp [bootPct, bootTot, bootInd, bootDir, validCount]
  · intro a b d htot
    unfold pct_pt
    rw [htot]
    unfold fDivQ
    rw [if_neg fun hne => hne rfl]
    split_ifs <;> rfl

/-- Witness for the amended C5 at `(indirect, direct) = (1, -1)`. -/
theorem pct_zero_total_propagates_witness :
    fMul100 (fDivQ 1 (1 + -1)) =
      (if (0 : ℚ) < 1 then FVal.inf else if (1 : ℚ) < 0 then FVal.neginf
        else FVal.nan) :=
  (pct_zero_total_propagates 1 (-1) (by norm_num)).1

/-- C4: the Sobel test computes
`se_sobel = sqrt(b²·se_a² + a²·se_b²)`, `z = (a*b)/se_sobel`, and
`p = 2*(1 − Φ(|z|))`, with `sqrt` and `Φ` the external `np.sqrt` and
`scipy.stats.norm.cdf` routines; in particular `z · se_sobel = a·b` whenever
`se_sobel ≠ 0`. -/
theorem sobel_formulas (sqrt Φ : ℚ → ℚ) (a se_a b se_b : ℚ)
    (hne : sobel_se sqrt a se_a b se_b ≠ 0) :
    sobel_se sqrt a se_a b se_b = sqrt (b ^ 2 * se_a ^ 2 + a ^ 2 * se_b ^ 2) ∧
    sobel_z sqrt a se_a b se_b =
      a * b / sqrt (b ^ 2 * se_a ^ 2 + a ^ 2 * se_b ^ 2) ∧
    sobel_z sqrt a se_a b se_b * sobel_se sqrt a se_a b se_b = a * b ∧
    sobel_p sqrt Φ a se_a b se_b =
      2 * (1 - Φ |a * b / sqrt (b ^ 2 * se_a ^ 2 + a ^ 2 * se_b ^ 2)|) := by
  refine ⟨rfl, rfl, ?_, rfl⟩
  unfold sobel_z ind_pt
  exact div_mul_cancel₀ _ hne

/-- Witness for C4 with `a = 2`, `se_a = 1`, `b = 3`, `se_b = 2`, where the
radicand is `25` and the modelled `np.sqrt` returns `5`. -/
theorem sobel_formulas_witness :
    sobel_se (fun q => if q = 25 then 5 else 0) 2 1 3 2 =
      (fun q : ℚ => if q = 25 then 5 else 0)
        ((3 : ℚ) ^ 2 * 1 ^ 2 + 2 ^ 2 * 2 ^ 2) ∧
    sobel_z (fun q => if q = 25 then 5 else 0) 2 1 3 2 =
      2 * 3 / (fun q : ℚ => if q = 25 then 5 else 0)
        ((3 : ℚ) ^ 2 * 1 ^ 2 + 2 ^ 2 * 2 ^ 2) ∧
    sobel_z (fun q => if q = 25 then 5 else 0) 2 1 3 2 *
      sobel_se (fun q => if q = 25 then 5 else 0) 2 1 3 2 = 2 * 3 ∧
    sobel_p (fun q => if q = 25 then 5 else 0) (fun _ => 1 / 2) 2 1 3 2 =
      2 * (1 - (fun _ : ℚ => (1 : ℚ) / 2)
        |2 * 3 / (fun q : ℚ => if q = 25 then 5 else 0)
          ((3 : ℚ) ^ 2 * 1 ^ 2 + 2 ^ 2 * 2 ^ 2)|) :=
  sobel_formulas (fun q => if q = 25 then 5 else 0) (fun _ => 1 / 2) 2 1 3 2
    (by norm_num [sobel_se])

/-! ## Percentile lemmas (claim C7) -/

theorem sorted_getD_mono (s : List ℚ) (hs : List.Sorted (· ≤ ·) s) (a b : ℕ)
    (hab : a ≤ b) (hb : b < s.length) : s.getD a 0 ≤ s.getD b 0 := by
  have ha : a < s.length := Nat.lt_of_le_of_lt hab hb
  rw [List.getD_eq_get s 0 ha, List.getD_eq_get s 0 hb]
  rcases Nat.eq_or_lt_of_le hab with rfl | hlt
  · exact le_of_eq rfl
  · exact List.Sorted.rel_get_of_lt hs (Fin.mk_lt_mk.mpr hlt)

theorem rankOf_nonneg (m : ℕ) (q : ℚ) (hq : 0 ≤ q) (hm : 1 ≤ m) :
    0 ≤ rankOf m q := by
  unfold rankOf
  have hm1 : (0 : ℚ) ≤ (m : ℚ) - 1 := by
    have : (1 : ℚ) ≤ (m : ℚ) := by exact_mod_cast hm
    linarith
  positivity

theorem rankOf_le (m : ℕ) (q : ℚ) (hq : q ≤ 100) (hm : 1 ≤ m) :
    rankOf m q ≤ (m : ℚ) - 1 := by
  unfold rankOf
  have hm1 : (0 : ℚ) ≤ (m : ℚ) - 1 := by
    have : (1 : ℚ) ≤ (m : ℚ) := by exact_mod_cast hm
    linarith
  rw [div_le_iff (by norm_num : (0 : ℚ) < 100)]
  nlinarith [mul_nonneg (by linarith : (0 : ℚ) ≤ 100 - q) hm1]

theorem rankOf_mono (m : ℕ) (q₁ q₂ : ℚ) (h : q₁ ≤ q₂) (hm : 1 ≤ m) :
    rankOf m q₁ ≤ rankOf m q₂ := by
  unfold rankOf
  have hm1 : (0 : ℚ) ≤ (m : ℚ) - 1 := by
    have : (1 : ℚ) ≤ (m : ℚ) := by exact_mod_cast hm
    linarith
  have := mul_le_mul_of_nonneg_right h hm1
  linarith

theorem idxOf_le_rank (m : ℕ) (q : ℚ) (h0 : 0 ≤ rankOf m q) :
    ((idxOf m q : ℕ) : ℚ) ≤ rankOf m q := by
  have hfl : (0 : ℤ) ≤ ⌊rankOf m q⌋ := Int.floor_nonneg.mpr h0
  have hcast : ((idxOf m q : ℕ) : ℚ) = ((⌊rankOf m q⌋ : ℤ) : ℚ) := by
    unfold idxOf
    exact_mod_cast congrArg (fun z : ℤ => (z : ℚ)) (Int.toNat_of_nonneg hfl)
  rw [hcast]
  exact Int.floor_le _

theorem rank_lt_idxOf_add_one (m : ℕ) (q : ℚ) (h0 : 0 ≤ rankOf m q) :
    rankOf m q < ((idxOf m q : ℕ) : ℚ) + 1 := by
  have hfl : (0 : ℤ) ≤ ⌊rankOf m q⌋ := Int.floor_nonneg.mpr h0
  have hcast : ((idxOf m q : ℕ) : ℚ) = ((⌊rankOf m q⌋ : ℤ) : ℚ) := by
    unfold idxOf
    exact_mod_cast congrArg (fun z : ℤ => (z : ℚ)) (Int.toNat_of_nonneg hfl)
  rw [hcast]
  exact Int.lt_floor_add_one _

theorem idxOf_le_sub_one (m : ℕ) (q : ℚ) (hm : 1 ≤ m) (h0 : 0 ≤ q)
    (h1 : q ≤ 100) : idxOf m q ≤ m - 1 := by
  have hq : ((idxOf m q : ℕ) : ℚ) ≤ (m : ℚ) - 1 :=
    le_trans (idxOf_le_rank m q (rankOf_nonneg m q h0 hm)) (rankOf_le m q h1 hm)
  have hcast : ((m - 1 : ℕ) : ℚ) = (m : ℚ) - 1 := by
    rw [Nat.cast_sub hm, Nat.cast_one]
  rw [← hcast] at hq
  exact_mod_cast hq

theorem idxOf_mono (m : ℕ) (q₁ q₂ : ℚ) (h : q₁ ≤ q₂) (hm : 1 ≤ m) :
    idxOf m q₁ ≤ idxOf m q₂ := by
  unfold idxOf
  exact Int.toNat_le_toNat (Int.floor_mono (rankOf_mono m q₁ q₂ h hm))

theorem percLin_between (s : List ℚ) (hs : List.Sorted (· ≤ ·) s)
    (hne : s ≠ []) (q : ℚ) (h0 : 0 ≤ q) (h1 : q ≤ 100) :
    s.getD (idxOf s.length q) 0 ≤ percLin s q ∧
    percLin s q ≤ s.getD (min (idxOf s.length q + 1) (s.length - 1)) 0 := by
  have hm : 1 ≤ s.length := List.length_pos.mpr hne
  have hr0 : 0 ≤ rankOf s.length q := rankOf_nonneg _ q h0 hm
  have hi1 : idxOf s.length q ≤ s.length - 1 := idxOf_le_sub_one _ q hm h0 h1
  have hij : idxOf s.length q ≤ min (idxOf s.length q + 1) (s.length - 1) :=
    le_min (Nat.le_succ _) hi1
  have hjm : min (idxOf s.length q + 1) (s.length - 1) < s.length :=
    Nat.lt_of_le_of_lt (min_le_right _ _) (by omega)
  have hdij : s.getD (idxOf s.length q) 0 ≤
      s.getD (min (idxOf s.length q + 1) (s.length - 1)) 0 :=
    sorted_getD_mono s hs _ _ hij hjm
  have hf0 : 0 ≤ rankOf s.length q - ((idxOf s.length q : ℕ) : ℚ) :=
    sub_nonneg.mpr (idxOf_le_rank _ q hr0)
  have hf1 : rankOf s.length q - ((idxOf s.length q : ℕ) : ℚ) ≤ 1 := by
    have := rank_lt_idxOf_add_one s.length q hr0
    linarith
  unfold percLin
  constructor
  · nlinarith [mul_nonneg hf0 (sub_nonneg.mpr hdij)]
  · nlinarith [mul_le_mul_of_nonneg_right hf1 (sub_nonneg.mpr hdij)]

theorem percLin_mono (s : List ℚ) (hs : List.Sorted (· ≤ ·) s) (hne : s ≠ [])
    (q₁ q₂ : ℚ) (h0 : 0 ≤ q₁) (h12 : q₁ ≤ q₂) (h2 : q₂ ≤ 100) :
    percLin s q₁ ≤ percLin s q₂ := by
  have hm : 1 ≤ s.length := List.length_pos.mpr hne
  have hii : idxOf s.length q₁ ≤ idxOf s.length q₂ := idxOf_mono _ q₁ q₂ h12 hm
  rcases Nat.eq_or_lt_of_le hii with heq | hlt
  · have hr12 : rankOf s.length q₁ ≤ rankOf s.length q₂ :=
      rankOf_mono _ q₁ q₂ h12 hm
    have hi1 : idxOf s.length q₁ ≤ s.length - 1 := idxOf_le_sub_one _ q₁ hm h0 (by linarith)
    have hjm : min (idxOf s.length q₁ + 1) (s.length - 1) < s.length :=
      Nat.lt_of_le_of_lt (min_le_right _ _) (by omega)
    have hdij : s.getD (idxOf s.length q₁) 0 ≤
        s.getD (min (idxOf s.length q₁ + 1) (s.length - 1)) 0 :=
      sorted_getD_mono s hs _ _ (le_min (Nat.le_succ _) hi1) hjm
    unfold percLin
    rw [← heq]
    nlinarith [mul_le_mul_of_nonneg_right (sub_le_sub_right hr12
      ((idxOf s.length q₁ : ℕ) : ℚ)) (sub_nonneg.mpr hdij)]
  · have h01 := percLin_between s hs hne q₁ h0 (by linarith)
    have h02 := percLin_between s hs hne q₂ (by linarith) h2
    have hi2 : idxOf s.length q₂ ≤ s.length - 1 :=
      idxOf_le_sub_one _ q₂ hm (by linarith) h2
    have hj1le : min (idxOf s.length q₁ + 1) (s.length - 1) ≤ idxOf s.length q₂ :=
      le_trans (min_le_left _ _) hlt
    have hmid : s.getD (min (idxOf s.length q₁ + 1) (s.length - 1)) 0 ≤
        s.getD (idxOf s.length q₂) 0 :=
      sorted_getD_mono s hs _ _ hj1le (by omega)
    linarith [h01.2, h02.1]

theorem intervalOK_of_ne_nil (l : List ℚ) (hne : l ≠ []) : intervalOK l := by
  have hperm : List.Perm (sortedOf l) l := List.perm_insertionSort _ l
  have hs : List.Sorted (· ≤ ·) (sortedOf l) := List.sorted_insertionSort _ l
  have hlen : (sortedOf l).length = l.length := hperm.length_eq
  have hl : 0 < l.length := List.length_pos.mpr hne
  have hsl : 0 < (sortedOf l).length := by omega
  have hsne : sortedOf l ≠ [] := by
    intro h
    rw [h] at hlen
    simp at hlen
    omega
  have hminmem : listMin l ∈ l := by
    unfold listMin
    rw [List.getD_eq_get _ 0 hsl]
    exact hperm.subset (List.get_mem _ 0 hsl)
  have hminle : ∀ x ∈ l, listMin l ≤ x := by
    intro x hx
    rcases List.mem_iff_get.mp (hperm.mem_iff.mpr hx) with ⟨a, rfl⟩
    have := sorted_getD_mono (sortedOf l) hs 0 a.val (Nat.zero_le _) a.2
    rw [List.getD_eq_get _ 0 a.2] at this
    simpa [listMin] using this
  have hmaxlt : l.length - 1 < (sortedOf l).length := by omega
  have hmaxmem : listMax l ∈ l := by
    unfold listMax
    rw [List.getD_eq_get _ 0 hmaxlt]
    exact hperm.subset (List.get_mem _ _ hmaxlt)
  have hmaxge : ∀ x ∈ l, x ≤ listMax l := by
    intro x hx
    rcases List.mem_iff_get.mp (hperm.mem_iff.mpr hx) with ⟨a, rfl⟩
    have ha : a.val ≤ l.length - 1 := by
      have := a.2
      omega
    have := sorted_getD_mono (sortedOf l) hs a.val (l.length - 1) ha hmaxlt
    rw [List.getD_eq_get _ 0 a.2] at this
    simpa [listMax] using this
  have hm1 : 1 ≤ (sortedOf l).length := hsl
  have hlow := percLin_between (sortedOf l) hs hsne 2.5 (by norm_num) (by norm_num)
  have hhigh := percLin_between (sortedOf l) hs hsne 97.5 (by norm_num) (by norm_num)
  have hi_low : idxOf (sortedOf l).length 2.5 < (sortedOf l).length := by
    have := idxOf_le_sub_one (sortedOf l).length 2.5 hm1 (by norm_num) (by norm_num)
    omega
  have hj_high : min (idxOf (sortedOf l).length 97.5 + 1) ((sortedOf l).length - 1) ≤
      (sortedOf l).length - 1 := min_le_right _ _
  refine ⟨hminmem, hminle, hmaxmem, hmaxge, ?_, ?_, ?_⟩
  · have h1 : (sortedOf l).getD 0 0 ≤ (sortedOf l).getD (idxOf (sortedOf l).length 2.5) 0 :=
      sorted_getD_mono (sortedOf l) hs 0 _ (Nat.zero_le _) hi_low
    calc listMin l ≤ (sortedOf l).getD (idxOf (sortedOf l).length 2.5) 0 := h1
      _ ≤ percLin (sortedOf l) 2.5 := hlow.1
  · exact percLin_mono (sortedOf l) hs hsne 2.5 97.5 (by norm_num) (by norm_num)
      (by norm_num)
  · have h2 :
        (sortedOf l).getD (min (idxOf (sortedOf l).length 97.5 + 1) ((sortedOf l).length - 1)) 0 ≤ (sortedOf l).getD (l.length - 1) 0 := by
      refine sorted_getD_mono (sortedOf l) hs _ _ ?_ hmaxlt
      omega
    exact le_trans hhigh.2 h2

/-- C7: each reported 95% interval is the `(2.5, 97.5)` percentile pair of
the corresponding valid-iteration distribution, computed with numpy's
linear-interpolation percentile method; consequently `low ≤ high` and both
bounds lie between the minimum and maximum of the underlying distribution.
For the percent statistic the distribution is the rational list `bootPctQ`,
which is what `boot_pct` holds whenever no valid draw has a zero total (the
zero-total case produces non-finite entries — see the C5 theorems). -/
theorem ci_percentile_intervals (recs : List (Option (ℚ × ℚ)))
    (hv : validRecs recs ≠ [])
    (hz : ∀ p ∈ validRecs recs, p.1 + p.2 ≠ 0) :
    ciInd recs = ci (bootInd recs) ∧
    ciDir recs = ci (bootDir recs) ∧
    ciTot recs = ci (bootTot recs) ∧
    (∀ l : List ℚ, ci l = (npPercentile l 2.5, npPercentile l 97.5)) ∧
    intervalOK (bootInd recs) ∧
    intervalOK (bootDir recs) ∧
    intervalOK (bootTot recs) ∧
    bootPct recs = (bootPctQ recs).map FVal.fin ∧
    intervalOK (bootPctQ recs) := by
  have hind : bootInd recs ≠ [] := by
    simp only [bootInd, ne_eq, List.map_eq_nil]
    exact hv
  have hdir : bootDir recs ≠ [] := by
    simp only [bootDir, ne_eq, List.map_eq_nil]
    exact hv
  have htot_eq : bootTot recs = (validRecs recs).map fun p => p.1 + p.2 := by
    unfold bootTot bootInd bootDir
    exact zipWith_map_same _ _ _ _
  have htot : bootTot recs ≠ [] := by
    rw [htot_eq]
    simp only [ne_eq, List.map_eq_nil]
    exact hv
  have hpctQ_eq : bootPctQ recs =
      (validRecs recs).map fun p => p.1 / (p.1 + p.2) * 100 := by
    unfold bootPctQ
    rw [show bootInd recs = (validRecs recs).map Prod.fst from rfl, htot_eq]
    exact zipWith_map_same _ _ _ _
  have hpctQ : bootPctQ recs ≠ [] := by
    rw [hpctQ_eq]
    simp only [ne_eq, List.map_eq_nil]
    exact hv
  have hpct_eq : bootPct recs = (bootPctQ recs).map FVal.fin := by
    unfold bootPct
    rw [show bootInd recs = (validRecs recs).map Prod.fst from rfl, htot_eq,
      hpctQ_eq, List.map_map, zipWith_map_same]
    refine List.map_congr_left fun p hp => ?_
    have hzp : p.1 + p.2 ≠ 0 := hz p hp
    simp [Function.comp, fDivQ, fMul100, hzp]
  exact ⟨rfl, rfl, rfl, fun l => rfl, intervalOK_of_ne_nil _ hind,
    intervalOK_of_ne_nil _ hdir, intervalOK_of_ne_nil _ htot, hpct_eq,
    intervalOK_of_ne_nil _ hpctQ⟩

/-- Witness for C7 on the two-draw record list `[(1, 2), (2, 3)]`: the
indirect-effect interval is well-shaped. -/
theorem ci_percentile_intervals_witness :
    intervalOK (bootInd [some (1, 2), some (2, 3)]) :=
  (ci_percentile_intervals [some (1, 2), some (2, 3)]
    (by simp [validRecs])
    (by norm_num [validRecs, List.filterMap_cons])).2.2.2.2.1

/-! ## Least-squares lemmas (claims C1 and C10) -/

theorem sqNorm_nonneg {n : ℕ} (v : Fin n → ℚ) : 0 ≤ sqNorm v := by
  unfold sqNorm Matrix.dotProduct
  exact Finset.sum_nonneg fun i _ => mul_self_nonneg _

theorem sqNorm_eq_zero {n : ℕ} (v : Fin n → ℚ) (h : sqNorm v = 0) : v = 0 := by
  funext i
  unfold sqNorm Matrix.dotProduct at h
  have := (Finset.sum_eq_zero_iff_of_nonneg
    fun j _ => mul_self_nonneg (v j)).mp h i (Finset.mem_univ i)
  simpa using mul_self_eq_zero.mp this

theorem sqNorm_add (u w : Fin n → ℚ) :
    sqNorm (u + w) = sqNorm u + 2 * (u ⬝ᵥ w) + sqNorm w := by
  unfold sqNorm Matrix.dotProduct
  rw [Finset.mul_sum, ← Finset.sum_add_distrib, ← Finset.sum_add_distrib]
  exact Finset.sum_congr rfl fun i _ => by simp only [Pi.add_apply]; ring

/-- If `β` satisfies the normal equations, the residual of any `γ` decomposes
as the `β`-residual plus the fitted-difference term (Pythagoras for least
squares). -/
theorem sqNorm_residual_decomp {n k : ℕ} (X : Matrix (Fin n) (Fin k) ℚ)
    (y : Fin n → ℚ) (β : Fin k → ℚ) (hβ : normalEq X y β) (γ : Fin k → ℚ) :
    sqNorm (y - X.mulVec γ) =
      sqNorm (y - X.mulVec β) + sqNorm (X.mulVec (β - γ)) := by
  have hres : Xᵀ.mulVec (y - X.mulVec β) = 0 := by
    rw [Matrix.mulVec_sub, Matrix.mulVec_mulVec, hβ, sub_self]
  have hsplit : y - X.mulVec γ = (y - X.mulVec β) + X.mulVec (β - γ) := by
    rw [Matrix.mulVec_sub]
    abel
  have hdot : (y - X.mulVec β) ⬝ᵥ X.mulVec (β - γ) = 0 := by
    rw [Matrix.dotProduct_mulVec, ← Matrix.mulVec_transpose, hres,
      Matrix.zero_dotProduct]
  rw [hsplit, sqNorm_add, hdot]
  ring

/-- The normal equations characterise least-squares solutions (sufficiency). -/
theorem normalEq_isLS {n k : ℕ} (X : Matrix (Fin n) (Fin k) ℚ) (y : Fin n → ℚ)
    (β : Fin k → ℚ) (hβ : normalEq X y β) : isLS X y β := by
  intro γ
  rw [sqNorm_residual_decomp X y β hβ γ]
  linarith [sqNorm_nonneg (X.mulVec (β - γ))]

/-- With full column rank (`det (XᵀX) ≠ 0`) the least-squares solution is
unique: any minimiser equals any solution of the normal equations. -/
theorem ls_unique {n k : ℕ} (X : Matrix (Fin n) (Fin k) ℚ) (y : Fin n → ℚ)
    (β γ : Fin k → ℚ) (hβ : normalEq X y β) (hγ : isLS X y γ)
    (hdet : (Xᵀ * X).det ≠ 0) : γ = β := by
  have hβLS : isLS X y β := normalEq_isLS X y β hβ
  have heq : sqNorm (y - X.mulVec γ) = sqNorm (y - X.mulVec β) :=
    le_antisymm (hγ β) (hβLS γ)
  have h0 : sqNorm (X.mulVec (β - γ)) = 0 := by
    have := sqNorm_residual_decomp X y β hβ γ
    rw [heq] at this
    linarith
  have hXv : X.mulVec (β - γ) = 0 := sqNorm_eq_zero _ h0
  have hATA : (Xᵀ * X).mulVec (β - γ) = 0 := by
    rw [← Matrix.mulVec_mulVec, hXv, Matrix.mulVec_zero]
  have hunit : IsUnit (Xᵀ * X).det := isUnit_iff_ne_zero.mpr hdet
  have hsub : β - γ = 0 := by
    have h1 := congrArg ((Xᵀ * X)⁻¹.mulVec ·) hATA
    simp only [Matrix.mulVec_mulVec, Matrix.mulVec_zero] at h1
    rwa [Matrix.nonsing_inv_mul _ hunit, Matrix.one_mulVec] at h1
  have := sub_eq_zero.mp hsub
  exact this.symm

/-- C1: given the `np.linalg.lstsq` contract that each returned coefficient
vector satisfies the normal equations of its system, and full column rank of
`X` and `[X | Y_me]`, `mediation_fast` returns exactly
`(β₁[PFORR_COL], β₂[last], β₂[PFORR_COL])` where `β₁` is the unique OLS
coefficient vector of `Y_me` on `X` and `β₂` the unique OLS coefficient
vector of `Y_out` on the extended matrix `[X | Y_me]`. -/
theorem mediation_fast_is_ols {n k : ℕ}
    (solve : (m : ℕ) → Matrix (Fin n) (Fin m) ℚ → (Fin n → ℚ) → (Fin m → ℚ))
    (X : Matrix (Fin n) (Fin (k + 2)) ℚ) (yme yout : Fin n → ℚ)
    (h1 : normalEq X yme (solve (k + 2) X yme))
    (h2 : normalEq (extendX X yme) yout (solve (k + 3) (extendX X yme) yout))
    (hd1 : (Xᵀ * X).det ≠ 0)
    (hd2 : ((extendX X yme)ᵀ * extendX X yme).det ≠ 0) :
    ∃ (β₁ : Fin (k + 2) → ℚ) (β₂ : Fin (k + 3) → ℚ),
      isLS X yme β₁ ∧ (∀ γ, isLS X yme γ → γ = β₁) ∧
      isLS (extendX X yme) yout β₂ ∧
      (∀ γ, isLS (extendX X yme) yout γ → γ = β₂) ∧
      mediation_fast solve X yme yout =
        (β₁ (pforrIdx k), β₂ (Fin.last (k + 2)), β₂ (pforrIdxE k)) :=
  ⟨solve (k + 2) X yme, solve (k + 3) (extendX X yme) yout,
    normalEq_isLS _ _ _ h1, fun γ hγ => ls_unique _ _ _ _ h1 hγ hd1,
    normalEq_isLS _ _ _ h2, fun γ hγ => ls_unique _ _ _ _ h2 hγ hd2, rfl⟩

/-- A column permutation of the design matrix carries normal-equation
solutions to normal-equation solutions with the inversely permuted
coefficients. -/
theorem normalEq_perm {n k : ℕ} (X Xp : Matrix (Fin n) (Fin k) ℚ)
    (y : Fin n → ℚ) (σ : Fin k ≃ Fin k) (hXp : ∀ i j, Xp i j = X i (σ j))
    (βp : Fin k → ℚ) (hβp : normalEq Xp y βp) :
    normalEq X y (βp ∘ σ.symm) := by
  have hmv : X.mulVec (βp ∘ σ.symm) = Xp.mulVec βp := by
    funext i
    unfold Matrix.mulVec Matrix.dotProduct
    refine (Fintype.sum_equiv σ _ _ fun j => ?_).symm
    simp [hXp, Function.comp, Equiv.symm_apply_apply]
  unfold normalEq at hβp ⊢
  rw [← Matrix.mulVec_mulVec, hmv]
  rw [← Matrix.mulVec_mulVec] at hβp
  funext c
  have hcol : ∀ w : Fin n → ℚ, (Xᵀ.mulVec w) c = (Xpᵀ.mulVec w) (σ.symm c) := by
    intro w
    unfold Matrix.mulVec Matrix.dotProduct
    refine Finset.sum_congr rfl fun i _ => ?_
    simp only [Matrix.transpose_apply]
    rw [hXp, Equiv.apply_symm_apply]
  rw [hcol, hcol, hβp]

/-- C10: the numpy-lstsq estimator on the explicitly built design matrix and
the statsmodels/patsy formula fits produce the same `(a, b, direct)` point
estimates, because the formula design matrices are column permutations of
the fast ones (same column span, same drop-first region coding) and the HC3
covariance choice leaves the coefficients untouched.  Both solvers are
constrained only by the least-squares contract (normal equations), full rank
makes the solution unique, and the permutations match up the named columns. -/
theorem smf_matches_fast {n k : ℕ}
    (solve solve₂ : (m : ℕ) → Matrix (Fin n) (Fin m) ℚ → (Fin n → ℚ) → (Fin m → ℚ))
    (X : Matrix (Fin n) (Fin (k + 2)) ℚ) (yme yout : Fin n → ℚ)
    (Xme : Matrix (Fin n) (Fin (k + 2)) ℚ) (Xout : Matrix (Fin n) (Fin (k + 3)) ℚ)
    (σ : Fin (k + 2) ≃ Fin (k + 2)) (τ : Fin (k + 3) ≃ Fin (k + 3))
    (pforrMe : Fin (k + 2)) (meOut pforrOut : Fin (k + 3))
    (hXme : ∀ i j, Xme i j = X i (σ j))
    (hXout : ∀ i j, Xout i j = extendX X yme i (τ j))
    (hσ : σ pforrMe = pforrIdx k)
    (hτm : τ meOut = Fin.last (k + 2))
    (hτp : τ pforrOut = pforrIdxE k)
    (h1 : normalEq X yme (solve (k + 2) X yme))
    (h2 : normalEq (extendX X yme) yout (solve (k + 3) (extendX X yme) yout))
    (h1s : normalEq Xme yme (solve₂ (k + 2) Xme yme))
    (h2s : normalEq Xout yout (solve₂ (k + 3) Xout yout))
    (hd1 : (Xᵀ * X).det ≠ 0)
    (hd2 : ((extendX X yme)ᵀ * extendX X yme).det ≠ 0) :
    smf_triple solve₂ Xme Xout pforrMe meOut pforrOut yme yout =
      mediation_fast solve X yme yout := by
  have e1 : (solve₂ (k + 2) Xme yme) ∘ σ.symm = solve (k + 2) X yme :=
    ls_unique X yme _ _ h1
      (normalEq_isLS _ _ _ (normalEq_perm X Xme yme σ hXme _ h1s)) hd1
  have e2 : (solve₂ (k + 3) Xout yout) ∘ τ.symm =
      solve (k + 3) (extendX X yme) yout :=
    ls_unique (extendX X yme) yout _ _ h2
      (normalEq_isLS _ _ _ (normalEq_perm (extendX X yme) Xout yout τ hXout _ h2s))
      hd2
  have ha : solve₂ (k + 2) Xme yme pforrMe = solve (k + 2) X yme (pforrIdx k) := by
    have := congrFun e1 (σ pforrMe)
    simp only [Function.comp, Equiv.symm_apply_apply] at this
    rwa [hσ] at this
  have hb : solve₂ (k + 3) Xout yout meOut =
      solve (k + 3) (extendX X yme) yout (Fin.last (k + 2)) := by
    have := congrFun e2 (τ meOut)
    simp only [Function.comp, Equiv.symm_apply_apply] at this
    rwa [hτm] at this
  have hd : solve₂ (k + 3) Xout yout pforrOut =
      solve (k + 3) (extendX X yme) yout (pforrIdxE k) := by
    have := congrFun e2 (τ pforrOut)
    simp only [Function.comp, Equiv.symm_apply_apply] at this
    rwa [hτp] at this
  unfold smf_triple mediation_fast
  rw [ha, hb, hd]

/-! ## Concrete facts for the C1 and C10 witnesses -/

theorem extendXw_eq : extendX Xw ymew = !![1, 0, 0; 1, 1, 1; 1, 0, 2] := by
  ext i j
  fin_cases i <;> fin_cases j <;>
    norm_num [extendX, Xw, ymew, Fin.snoc, Fin.castPred, Fin.castLT]

theorem XtXw_eq : Xwᵀ * Xw = !![3, 1; 1, 1] := by
  ext i j
  fin_cases i <;> fin_cases j <;>
    norm_num [Matrix.mul_apply, Fin.sum_univ_succ, Xw]

theorem Xw_det1 : (Xwᵀ * Xw).det ≠ 0 := by
  rw [XtXw_eq]
  norm_num [Matrix.det_fin_two]

theorem Xw_det2 : ((extendX Xw ymew)ᵀ * extendX Xw ymew).det ≠ 0 := by
  rw [extendXw_eq, Matrix.det_mul, Matrix.det_transpose]
  have h : (!![1, 0, 0; 1, 1, 1; 1, 0, 2] : Matrix (Fin 3) (Fin 3) ℚ).det = 2 := by
    norm_num [Matrix.det_fin_three]
  rw [h]
  norm_num

theorem wSolve_ne1 : normalEq Xw ymew (wSolve 2 Xw ymew) := by
  show (Xwᵀ * Xw).mulVec ![1, 0] = Xwᵀ.mulVec ymew
  funext c
  fin_cases c <;>
    norm_num [Xw, ymew, Matrix.mulVec, Matrix.dotProduct, Matrix.mul_apply,
      Fin.sum_univ_succ]

theorem wSolve_ne2 :
    normalEq (extendX Xw ymew) youtw (wSolve 3 (extendX Xw ymew) youtw) := by
  show ((extendX Xw ymew)ᵀ * extendX Xw ymew).mulVec ![0, 0, 2] =
    (extendX Xw ymew)ᵀ.mulVec youtw
  rw [extendXw_eq]
  funext c
  fin_cases c <;>
    norm_num [youtw, Matrix.mulVec, Matrix.dotProduct, Matrix.mul_apply,
      Fin.sum_univ_succ]

/-- Witness for C1 on the concrete 3×2 full-rank system `Xw`, `ymew`,
`youtw` with the concrete solver `wSolve`. -/
theorem mediation_fast_is_ols_witness :
    ∃ (β₁ : Fin 2 → ℚ) (β₂ : Fin 3 → ℚ),
      isLS Xw ymew β₁ ∧ (∀ γ, isLS Xw ymew γ → γ = β₁) ∧
      isLS (extendX Xw ymew) youtw β₂ ∧
      (∀ γ, isLS (extendX Xw ymew) youtw γ → γ = β₂) ∧
      mediation_fast wSolve Xw ymew youtw =
        (β₁ (pforrIdx 0), β₂ (Fin.last 2), β₂ (pforrIdxE 0)) :=
  mediation_fast_is_ols wSolve Xw ymew youtw wSolve_ne1 wSolve_ne2 Xw_det1 Xw_det2

theorem Xmew_eq : (Matrix.of fun i j => Xw i (σw j)) = !![0, 1; 1, 1; 0, 1] := by
  ext i j
  fin_cases i <;> fin_cases j <;>
    norm_num [Xw, σw, Equiv.swap_apply_left, Equiv.swap_apply_right]

theorem Xoutw_eq : (Matrix.of fun i j => extendX Xw ymew i (τw j)) =
    !![0, 0, 1; 1, 1, 1; 0, 2, 1] := by
  rw [show (fun i j => extendX Xw ymew i (τw j)) =
      fun i j => (!![1, 0, 0; 1, 1, 1; 1, 0, 2] : Matrix (Fin 3) (Fin 3) ℚ) i
        (τw j) by rw [extendXw_eq]]
  ext i j
  fin_cases i <;> fin_cases j <;> norm_num [τw]

theorem wSolve2_ne1 : normalEq (Matrix.of fun i j => Xw i (σw j)) ymew
    (wSolve2 2 (Matrix.of fun i j => Xw i (σw j)) ymew) := by
  show normalEq (Matrix.of fun i j => Xw i (σw j)) ymew ![0, 1]
  unfold normalEq
  rw [Xmew_eq]
  funext c
  fin_cases c <;>
    norm_num [ymew, Matrix.mulVec, Matrix.dotProduct, Matrix.mul_apply,
      Fin.sum_univ_succ]

theorem wSolve2_ne2 : normalEq (Matrix.of fun i j => extendX Xw ymew i (τw j))
    youtw (wSolve2 3 (Matrix.of fun i j => extendX Xw ymew i (τw j)) youtw) := by
  show normalEq (Matrix.of fun i j => extendX Xw ymew i (τw j)) youtw ![0, 2, 0]
  unfold normalEq
  rw [Xoutw_eq]
  funext c
  fin_cases c <;>
    norm_num [youtw, Matrix.mulVec, Matrix.dotProduct, Matrix.mul_apply,
      Fin.sum_univ_succ]

/-- Witness for C10: the concrete formula-order designs (`pforr` first, the
mediator in the middle of the outcome design) against the fast designs, tied
by the permutations `σw`, `τw`; both solvers return their systems' exact
least-squares solutions and the triples coincide. -/
theorem smf_matches_fast_witness :
    smf_triple wSolve2 (Matrix.of fun i j => Xw i (σw j))
      (Matrix.of fun i j => extendX Xw ymew i (τw j)) 0 1 0 ymew youtw =
      mediation_fast wSolve Xw ymew youtw :=
  smf_matches_fast wSolve wSolve2 Xw ymew youtw _ _ σw τw 0 1 0
    (fun i j => rfl) (fun i j => rfl)
    (by simp [σw, pforrIdx, PFORR_COL])
    (by simp [τw]; rfl)
    (by simp [τw, pforrIdxE, PFORR_COL])
    wSolve_ne1 wSolve_ne2 wSolve2_ne1 wSolve2_ne2 Xw_det1 Xw_det2
